import Mathlib

/-!
Verification development for the morphoBPE trainer.

The trainer (`bpe.cpp`, `bpes/bpe.cpp`, `bpes/bpe_sa.cpp`) interns token
strings to dense ids, keeps per-word token sequences, maintains a map from
adjacent token pairs to the set of word indices containing them, and
repeatedly merges the pair of maximal weighted frequency until no pair has
weighted frequency at least 2.  `bpes/bpe_sa.cpp` additionally builds a
suffix automaton over the concatenation of the original words (joined by
the separator character `#`) and reports, for each merge, the occurrence
count of the new token string in that corpus.  `bpes/bpe2.cpp` is a
linked-list variant with a reserved spacer token (id 0) between words.

Token strings are modelled as lists of Unicode codepoints (naturals);
token ids are naturals indexing the interning table `id_to_token`.
-/

set_option maxRecDepth 10000

namespace MorphoBPE

/-- One corpus word (`struct WordEntry`): the original codepoint string, the
`tf` weight and the (unused) `df` field of `bpe.cpp` (the `bpes` variants
carry no weight, which corresponds to `tf = 1`), the current token sequence
and the cached set of adjacent token pairs (`pairSet`). -/
structure WordEntry where
  original : List Nat
  tf : Nat
  df : Nat
  tokens : List Nat
  pairSet : Finset (Nat × Nat)
  deriving DecidableEq

instance : Inhabited WordEntry := ⟨⟨[], 0, 0, [], ∅⟩⟩

/-- One merge rule (`struct MergeRule`): the merged pair, the id of the new
token and the recorded frequency field. -/
structure MergeRule where
  mergePair : Nat × Nat
  newToken : Nat
  frequency : Nat
  deriving DecidableEq, Repr

/-- `get_token_id`: return the id of the first table entry equal to `s`;
if `s` is absent, append it to the table and return the fresh id (which is
the old table length).  Returns the updated table together with the id. -/
def getTokenId : List (List Nat) → List Nat → List (List Nat) × Nat
  | [], s => ([s], 0)
  | t :: ts, s =>
    if t = s then (t :: ts, 0)
    else
      let r := getTokenId ts s
      (t :: r.1, r.2 + 1)

/-- `id_to_token[i]`: the string of token id `i` (empty list out of range). -/
def strOf (tbl : List (List Nat)) (i : Nat) : List Nat := tbl.getD i []

/-- `compute_pairs`: the set of adjacent token pairs of a token sequence. -/
def computePairs (ts : List Nat) : Finset (Nat × Nat) :=
  (ts.zip ts.tail).toFinset

/-- `count_occurrences_in_word`: the number of positions `i` with
`tokens[i] = p.1` and `tokens[i+1] = p.2`. -/
def countOcc (ts : List Nat) (p : Nat × Nat) : Nat :=
  (ts.zip ts.tail).count p

/-- `merge_pair_in_word`: scan left to right, replacing every matching
adjacent occurrence of `tp` by the token `nid` and advancing past both
matched elements. -/
def mergePairInWord (tp : Nat × Nat) (nid : Nat) : List Nat → List Nat
  | [] => []
  | [a] => [a]
  | a :: b :: rest =>
    if a = tp.1 ∧ b = tp.2 then nid :: mergePairInWord tp nid rest
    else a :: mergePairInWord tp nid (b :: rest)

/-- The whole trainer state: the interning table, the corpus, the pair
index (`pair_to_word_indices`, modelled as the set of registrations
`(pair, word index)`; a key is present in the C++ map exactly when it has
at least one registration, because empty sets are erased) and the merge
rule list. -/
structure BpeState where
  table : List (List Nat)
  words : List WordEntry
  index : Finset ((Nat × Nat) × Nat)
  merges : List MergeRule
  deriving DecidableEq

/-- The set of pair keys present in `pair_to_word_indices`. -/
def keysOf (st : BpeState) : Finset (Nat × Nat) := st.index.image Prod.fst

/-- The set of word indices registered under pair `p`. -/
def regsOf (st : BpeState) (p : Nat × Nat) : Finset Nat :=
  (st.index.filter (fun e => e.1 = p)).image Prod.snd

/-- The word at index `i` (a default empty word out of range). -/
def wordAt (st : BpeState) (i : Nat) : WordEntry := st.words.getD i default

/-- The weighted frequency of pair `p` as the selection loop computes it:
sum, over the word indices registered under `p`, of the number of adjacent
occurrences of `p` in the word times the word weight. -/
def wfreqIdx (st : BpeState) (p : Nat × Nat) : Nat :=
  Finset.sum (regsOf st p) (fun i => countOcc (wordAt st i).tokens p * (wordAt st i).tf)

/-- The weighted frequency of pair `p` recomputed independently by a full
rescan of every word of the corpus. -/
def wfreqCorpus (st : BpeState) (p : Nat × Nat) : Nat :=
  Finset.sum (Finset.range st.words.length)
    (fun i => countOcc (wordAt st i).tokens p * (wordAt st i).tf)

/-- The selection fold of the main loop: scan the keys in an arbitrary
enumeration order (standing for the hash iteration order), replacing the
best candidate whenever a strictly larger index-computed weighted frequency
is found; starts from `best_freq = 0` and `best_pair = (-1,-1)`, modelled
as `none`. -/
def selectFold (st : BpeState) (l : List (Nat × Nat)) : Option (Nat × Nat) × Nat :=
  l.foldl (fun acc q => if acc.2 < wfreqIdx st q then (some q, wfreqIdx st q) else acc)
    (none, 0)

/-- `p` can be the pair chosen by the selection loop under some hash
iteration order: it is a present key, it clears the floor of 2 and no key
has a strictly larger index-computed weighted frequency. -/
def Selectable (st : BpeState) (p : Nat × Nat) : Prop :=
  p ∈ keysOf st ∧ 2 ≤ wfreqIdx st p ∧ ∀ q ∈ keysOf st, wfreqIdx st q ≤ wfreqIdx st p

instance (st : BpeState) (p : Nat × Nat) : Decidable (Selectable st p) := by
  unfold Selectable; infer_instance

/-- The loop break condition `best_freq < 2`: every present key has
index-computed weighted frequency below 2. -/
def Terminated (st : BpeState) : Prop :=
  ∀ q ∈ keysOf st, wfreqIdx st q < 2

instance (st : BpeState) : Decidable (Terminated st) := by
  unfold Terminated; infer_instance

/-- Update of one affected word: replace the tokens by the merged sequence
and recompute the cached pair set. -/
def updWord (tp : Nat × Nat) (nid : Nat) (w : WordEntry) : WordEntry :=
  let nt := mergePairInWord tp nid w.tokens
  { w with tokens := nt, pairSet := computePairs nt }

/-- Apply `updWord` to exactly the words whose index lies in `aff`,
numbering the words from `k`. -/
def updWordsAux (aff : Finset Nat) (tp : Nat × Nat) (nid : Nat) :
    Nat → List WordEntry → List WordEntry
  | _, [] => []
  | k, w :: ws =>
    (if k ∈ aff then updWord tp nid w else w) :: updWordsAux aff tp nid (k + 1) ws

/-- The registrations removed during one merge iteration: for each affected
word, the pairs present before but absent after the merge. -/
def removalsOf (st : BpeState) (tp : Nat × Nat) (nid : Nat) : Finset ((Nat × Nat) × Nat) :=
  (regsOf st tp).biUnion (fun i =>
    ((wordAt st i).pairSet \
      computePairs (mergePairInWord tp nid (wordAt st i).tokens)).image (fun q => (q, i)))

/-- The registrations added during one merge iteration: for each affected
word, the pairs absent before but present after the merge. -/
def additionsOf (st : BpeState) (tp : Nat × Nat) (nid : Nat) : Finset ((Nat × Nat) × Nat) :=
  (regsOf st tp).biUnion (fun i =>
    (computePairs (mergePairInWord tp nid (wordAt st i).tokens) \
      (wordAt st i).pairSet).image (fun q => (q, i)))

/-- One iteration of the merge loop, merging the chosen pair `tp`: intern
the concatenation of the two token strings, rewrite exactly the registered
words, diff their pair sets against the index, erase the key `tp`, and
append a merge rule whose frequency field is produced by the
variant-specific recording function `frec` (given the pre-merge state, the
pair and the new token string). -/
def mergeStep (frec : BpeState → (Nat × Nat) → List Nat → Nat)
    (st : BpeState) (tp : Nat × Nat) : BpeState :=
  let nstr := strOf st.table tp.1 ++ strOf st.table tp.2
  let r := getTokenId st.table nstr
  let aff := regsOf st tp
  { table := r.1
    words := updWordsAux aff tp r.2 0 st.words
    index := ((st.index \ removalsOf st tp r.2) ∪ additionsOf st tp r.2).filter
      (fun e => e.1 ≠ tp)
    merges := st.merges ++ [⟨tp, r.2, frec st tp nstr⟩] }

/-- `st` evolves to `u` in `n` iterations of the merge loop, each iteration
merging some selectable pair. -/
inductive ReachesF (frec : BpeState → (Nat × Nat) → List Nat → Nat) :
    BpeState → Nat → BpeState → Prop
  | refl (s : BpeState) : ReachesF frec s 0 s
  | step {s t u : BpeState} {n : Nat} {p : Nat × Nat} :
      ReachesF frec s n t → Selectable t p → u = mergeStep frec t p →
      ReachesF frec s (n + 1) u

/-- Intern each codepoint of a word as a single-character token, returning
the updated table and the token id sequence (the loader loop over
`wide_word`). -/
def internChars : List (List Nat) → List Nat → List (List Nat) × List Nat
  | tbl, [] => (tbl, [])
  | tbl, c :: cs =>
    let r := getTokenId tbl [c]
    let r2 := internChars r.1 cs
    (r2.1, r.2 :: r2.2)

/-- Build the corpus from raw records `(original, tf, df)`: tokenize each
word per codepoint and cache its pair set. -/
def loadWords : List (List Nat) → List (List Nat × Nat × Nat) →
    List (List Nat) × List WordEntry
  | tbl, [] => (tbl, [])
  | tbl, r :: rs =>
    let t1 := internChars tbl r.1
    let t2 := loadWords t1.1 rs
    (t2.1, ⟨r.1, r.2.1, r.2.2, t1.2, computePairs t1.2⟩ :: t2.2)

/-- The initial pair index: register each word index under every pair of
its pair set. -/
def initIndex (ws : List WordEntry) : Finset ((Nat × Nat) × Nat) :=
  (Finset.range ws.length).biUnion
    (fun i => ((ws.getD i default).pairSet).image (fun p => (p, i)))

/-- The trainer state right after loading the corpus and building the
initial pair index. -/
def initState (rs : List (List Nat × Nat × Nat)) : BpeState :=
  let t := loadWords [] rs
  ⟨t.1, t.2, initIndex t.2, []⟩

/-- The total number of tokens across the corpus. -/
def totalTokens (st : BpeState) : Nat :=
  (st.words.map (fun w => w.tokens.length)).sum

/-! ### Basic facts about adjacency, merging and interning -/

theorem zipTail_cons (a b : Nat) (l : List Nat) :
    (a :: b :: l).zip (a :: b :: l).tail = (a, b) :: ((b :: l).zip (b :: l).tail) := rfl

theorem mem_of_mem_zipTail {x y : Nat} {ts : List Nat}
    (h : (x, y) ∈ ts.zip ts.tail) : x ∈ ts ∧ y ∈ ts := by
  have h1 := List.of_mem_zip h
  exact ⟨h1.1, ts.tail_subset h1.2⟩

theorem pair_mem_of_mem_zipTail {p : Nat × Nat} {ts : List Nat}
    (h : p ∈ ts.zip ts.tail) : p.1 ∈ ts ∧ p.2 ∈ ts := by
  cases p
  exact mem_of_mem_zipTail h

theorem mem_computePairs {q : Nat × Nat} {ts : List Nat} :
    q ∈ computePairs ts ↔ q ∈ ts.zip ts.tail := by
  simp [computePairs]

theorem countOcc_pos {ts : List Nat} {p : Nat × Nat} :
    0 < countOcc ts p ↔ p ∈ ts.zip ts.tail := by
  simp [countOcc, List.count_pos_iff]

theorem mergePair_length_le (tp : Nat × Nat) (nid : Nat) (ts : List Nat) :
    (mergePairInWord tp nid ts).length ≤ ts.length := by
  induction ts using mergePairInWord.induct tp nid with
  | case1 => simp [mergePairInWord]
  | case2 a => simp [mergePairInWord]
  | case3 a b rest h ih =>
    simp only [mergePairInWord, if_pos h, List.length_cons]
    omega
  | case4 a b rest h ih =>
    simp only [mergePairInWord, if_neg h, List.length_cons]
    simp only [List.length_cons] at ih
    omega

theorem mergePair_length_lt {ts : List Nat} {tp : Nat × Nat} (nid : Nat)
    (h : tp ∈ ts.zip ts.tail) :
    (mergePairInWord tp nid ts).length < ts.length := by
  induction ts using mergePairInWord.induct tp nid with
  | case1 => simp at h
  | case2 a => simp at h
  | case3 a b rest hm ih =>
    have hle := mergePair_length_le tp nid rest
    simp only [mergePairInWord, if_pos hm, List.length_cons]
    omega
  | case4 a b rest hm ih =>
    rw [zipTail_cons] at h
    rcases List.mem_cons.mp h with h1 | h1
    · exact absurd ⟨congrArg Prod.fst h1.symm, congrArg Prod.snd h1.symm⟩ hm
    · have h2 := ih h1
      simp only [mergePairInWord, if_neg hm, List.length_cons]
      simp only [List.length_cons] at h2
      omega

theorem mergePair_mem {x : Nat} {ts : List Nat} {tp : Nat × Nat} {nid : Nat}
    (h : x ∈ mergePairInWord tp nid ts) : x ∈ ts ∨ x = nid := by
  induction ts using mergePairInWord.induct tp nid with
  | case1 => simp [mergePairInWord] at h
  | case2 a => simp [mergePairInWord] at h; simp [h]
  | case3 a b rest hm ih =>
    simp only [mergePairInWord, if_pos hm, List.mem_cons] at h
    rcases h with h | h
    · exact Or.inr h
    · rcases ih h with h | h
      · exact Or.inl (by simp [h])
      · exact Or.inr h
  | case4 a b rest hm ih =>
    simp only [mergePairInWord, if_neg hm, List.mem_cons] at h
    rcases h with h | h
    · exact Or.inl (by simp [h])
    · rcases ih h with h | h
      · simp only [List.mem_cons] at h
        exact Or.inl (by simp [List.mem_cons]; tauto)
      · exact Or.inr h

theorem mergePair_head {a : Nat} {l : List Nat} {tp : Nat × Nat} {nid : Nat} :
    ∃ tl, mergePairInWord tp nid (a :: l) = a :: tl ∨
      mergePairInWord tp nid (a :: l) = nid :: tl := by
  match l with
  | [] => exact ⟨[], Or.inl rfl⟩
  | b :: rest =>
    by_cases hm : a = tp.1 ∧ b = tp.2
    · exact ⟨mergePairInWord tp nid rest, Or.inr (by simp [mergePairInWord, hm])⟩
    · exact ⟨mergePairInWord tp nid (b :: rest), Or.inl (by simp [mergePairInWord, hm])⟩

/-- Greedy replacement eliminates every adjacent occurrence of the merged
pair, provided the new token differs from both components. -/
theorem mergePair_not_mem {ts : List Nat} {tp : Nat × Nat} {nid : Nat}
    (h1 : nid ≠ tp.1) (h2 : nid ≠ tp.2) :
    tp ∉ (mergePairInWord tp nid ts).zip (mergePairInWord tp nid ts).tail := by
  induction ts using mergePairInWord.induct tp nid with
  | case1 => simp [mergePairInWord]
  | case2 a => simp [mergePairInWord]
  | case3 a b rest hm ih =>
    simp only [mergePairInWord, if_pos hm]
    intro hc
    match hr : mergePairInWord tp nid rest with
    | [] => rw [hr] at hc; simp at hc
    | c :: tl =>
      rw [hr] at hc
      rw [zipTail_cons] at hc
      rcases List.mem_cons.mp hc with h | h
      · exact h1 (congrArg Prod.fst h).symm
      · rw [← hr] at h; exact ih h
  | case4 a b rest hm ih =>
    simp only [mergePairInWord, if_neg hm]
    intro hc
    obtain ⟨tl, htl | htl⟩ := @mergePair_head b rest tp nid
    · rw [htl] at hc
      rw [zipTail_cons] at hc
      rcases List.mem_cons.mp hc with h | h
      · apply hm
        have h3 := Prod.ext_iff.mp h
        simp only at h3
        exact ⟨h3.1.symm, h3.2.symm⟩
      · rw [← htl] at h; exact ih h
    · rw [htl] at hc
      rw [zipTail_cons] at hc
      rcases List.mem_cons.mp hc with h | h
      · exact h2 (congrArg Prod.snd h).symm
      · rw [← htl] at h; exact ih h

theorem getTokenId_cases (tbl : List (List Nat)) (s : List Nat) :
    (getTokenId tbl s).1 = tbl ∨ (getTokenId tbl s).1 = tbl ++ [s] := by
  induction tbl with
  | nil => simp [getTokenId]
  | cons t ts ih =>
    by_cases h : t = s
    · simp [getTokenId, h]
    · simp only [getTokenId, if_neg h]
      rcases ih with h1 | h1
      · exact Or.inl (by simp [h1])
      · exact Or.inr (by simp [h1])

theorem getTokenId_len_le (tbl : List (List Nat)) (s : List Nat) :
    tbl.length ≤ (getTokenId tbl s).1.length := by
  rcases getTokenId_cases tbl s with h | h <;> simp [h]

theorem getTokenId_lt (tbl : List (List Nat)) (s : List Nat) :
    (getTokenId tbl s).2 < (getTokenId tbl s).1.length := by
  induction tbl with
  | nil => simp [getTokenId]
  | cons t ts ih =>
    by_cases h : t = s
    · simp [getTokenId, h]
    · simp only [getTokenId, if_neg h, List.length_cons]
      omega

theorem getTokenId_strOf (tbl : List (List Nat)) (s : List Nat) :
    strOf (getTokenId tbl s).1 (getTokenId tbl s).2 = s := by
  induction tbl with
  | nil => simp [getTokenId, strOf]
  | cons t ts ih =>
    by_cases h : t = s
    · simp [getTokenId, h, strOf]
    · simpa [getTokenId, if_neg h, strOf] using ih

theorem getTokenId_stable (tbl : List (List Nat)) (s : List Nat) {j : Nat}
    (hj : j < tbl.length) :
    strOf (getTokenId tbl s).1 j = strOf tbl j := by
  rcases getTokenId_cases tbl s with h | h
  · rw [h]
  · rw [h, strOf, strOf, List.getD_append _ _ _ _ hj]

theorem getTokenId_mem {t : List Nat} {tbl : List (List Nat)} {s : List Nat}
    (h : t ∈ (getTokenId tbl s).1) : t ∈ tbl ∨ t = s := by
  rcases getTokenId_cases tbl s with h1 | h1 <;> rw [h1] at h
  · exact Or.inl h
  · simpa using h

/-! ### Membership lemmas for the pair index and word updates -/

theorem mem_regsOf {st : BpeState} {p : Nat × Nat} {i : Nat} :
    i ∈ regsOf st p ↔ (p, i) ∈ st.index := by
  constructor
  · intro h
    simp only [regsOf, Finset.mem_image, Finset.mem_filter] at h
    obtain ⟨e, ⟨he, hep⟩, hei⟩ := h
    have he2 : e = (p, i) := by
      cases e
      simp only at hep hei
      simp [hep, hei]
    rwa [he2] at he
  · intro h
    simp only [regsOf, Finset.mem_image, Finset.mem_filter]
    exact ⟨(p, i), ⟨h, rfl⟩, rfl⟩

theorem mem_keysOf {st : BpeState} {p : Nat × Nat} :
    p ∈ keysOf st ↔ ∃ i, (p, i) ∈ st.index := by
  simp only [keysOf, Finset.mem_image]
  constructor
  · rintro ⟨e, he, rfl⟩
    exact ⟨e.2, he⟩
  · rintro ⟨i, hi⟩
    exact ⟨(p, i), hi, rfl⟩

theorem mem_pairTag {s : Finset (Nat × Nat)} {i j : Nat} {q : Nat × Nat} :
    (q, j) ∈ s.image (fun r => (r, i)) ↔ (j = i ∧ q ∈ s) := by
  simp only [Finset.mem_image, Prod.mk.injEq]
  constructor
  · rintro ⟨r, hr, rfl, rfl⟩
    exact ⟨rfl, hr⟩
  · rintro ⟨rfl, hq⟩
    exact ⟨q, hq, rfl, rfl⟩

theorem updWordsAux_length (aff : Finset Nat) (tp : Nat × Nat) (nid : Nat) :
    ∀ (k : Nat) (ws : List WordEntry), (updWordsAux aff tp nid k ws).length = ws.length := by
  intro k ws
  induction ws generalizing k with
  | nil => rfl
  | cons w ws ih => simp [updWordsAux, ih]

theorem updWordsAux_getD (aff : Finset Nat) (tp : Nat × Nat) (nid : Nat) :
    ∀ (k : Nat) (ws : List WordEntry) (j : Nat), j < ws.length →
      (updWordsAux aff tp nid k ws).getD j default =
        if k + j ∈ aff then updWord tp nid (ws.getD j default) else ws.getD j default := by
  intro k ws
  induction ws generalizing k with
  | nil => intro j hj; simp at hj
  | cons w ws ih =>
    intro j hj
    match j with
    | 0 => simp [updWordsAux]
    | j + 1 =>
      simp only [updWordsAux, List.getD_cons_succ]
      rw [ih (k + 1) j (by simpa using hj)]
      have : k + 1 + j = k + (j + 1) := by omega
      rw [this]

theorem updWordsAux_mem {aff : Finset Nat} {tp : Nat × Nat} {nid : Nat} :
    ∀ {k : Nat} {ws : List WordEntry} {w2 : WordEntry}, w2 ∈ updWordsAux aff tp nid k ws →
      w2 ∈ ws ∨ ∃ w ∈ ws, w2 = updWord tp nid w := by
  intro k ws
  induction ws generalizing k with
  | nil => intro w2 h; simp [updWordsAux] at h
  | cons w ws ih =>
    intro w2 h
    simp only [updWordsAux, List.mem_cons] at h
    rcases h with h | h
    · by_cases hk : k ∈ aff
      · rw [if_pos hk] at h
        exact Or.inr ⟨w, List.mem_cons_self w ws, h⟩
      · rw [if_neg hk] at h
        exact Or.inl (h ▸ List.mem_cons_self w ws)
    · rcases ih h with h1 | ⟨w3, hw3, he⟩
      · exact Or.inl (List.mem_cons_of_mem w h1)
      · exact Or.inr ⟨w3, List.mem_cons_of_mem w hw3, he⟩

theorem wordAt_mem {st : BpeState} {i : Nat} (h : i < st.words.length) :
    wordAt st i ∈ st.words := by
  unfold wordAt
  rw [List.getD_eq_getElem _ _ h]
  exact List.getElem_mem h

theorem strOf_mem {tbl : List (List Nat)} {j : Nat} (h : j < tbl.length) :
    strOf tbl j ∈ tbl := by
  unfold strOf
  rw [List.getD_eq_getElem _ _ h]
  exact List.getElem_mem h

/-! ### The run invariant -/

/-- Every interned string is nonempty and every token id occurring in a word
is a valid table index. -/
def TableWF (st : BpeState) : Prop :=
  (∀ s ∈ st.table, s ≠ ([] : List Nat)) ∧
  ∀ w ∈ st.words, ∀ t ∈ w.tokens, t < st.table.length

/-- Every cached `pairSet` equals the pair set recomputed from the word's
current tokens. -/
def PairSetsWF (st : BpeState) : Prop :=
  ∀ w ∈ st.words, w.pairSet = computePairs w.tokens

/-- The pair index is exact: a registration `(p, i)` is present precisely
when `i` is a valid word index whose current tokens contain `p` as adjacent
elements. -/
def IndexExact (st : BpeState) : Prop :=
  ∀ p i, ((p, i) ∈ st.index ↔
    i < st.words.length ∧ p ∈ (wordAt st i).tokens.zip (wordAt st i).tokens.tail)

/-- The invariant maintained by the merge loop. -/
def Inv (st : BpeState) : Prop := TableWF st ∧ PairSetsWF st ∧ IndexExact st

/-- The id the merge step interns for the concatenated pair string. -/
def newIdOf (st : BpeState) (tp : Nat × Nat) : Nat :=
  (getTokenId st.table (strOf st.table tp.1 ++ strOf st.table tp.2)).2

/-- The tokens of word `i` after the merge step for pair `tp`. -/
def newTokensOf (st : BpeState) (tp : Nat × Nat) (i : Nat) : List Nat :=
  if i ∈ regsOf st tp then mergePairInWord tp (newIdOf st tp) (wordAt st i).tokens
  else (wordAt st i).tokens

/-! ### Characterization of one merge iteration -/

theorem mergeStep_table (frec : BpeState → (Nat × Nat) → List Nat → Nat)
    (st : BpeState) (tp : Nat × Nat) :
    (mergeStep frec st tp).table =
      (getTokenId st.table (strOf st.table tp.1 ++ strOf st.table tp.2)).1 := rfl

theorem mergeStep_words (frec : BpeState → (Nat × Nat) → List Nat → Nat)
    (st : BpeState) (tp : Nat × Nat) :
    (mergeStep frec st tp).words = updWordsAux (regsOf st tp) tp (newIdOf st tp) 0 st.words :=
  rfl

theorem mergeStep_words_length (frec : BpeState → (Nat × Nat) → List Nat → Nat)
    (st : BpeState) (tp : Nat × Nat) :
    (mergeStep frec st tp).words.length = st.words.length := by
  rw [mergeStep_words]
  exact updWordsAux_length _ _ _ _ _

theorem mergeStep_wordAt (frec : BpeState → (Nat × Nat) → List Nat → Nat)
    (st : BpeState) (tp : Nat × Nat) {i : Nat} (hi : i < st.words.length) :
    wordAt (mergeStep frec st tp) i =
      if i ∈ regsOf st tp then updWord tp (newIdOf st tp) (wordAt st i) else wordAt st i := by
  unfold wordAt
  rw [mergeStep_words]
  rw [updWordsAux_getD _ _ _ 0 st.words i hi]
  simp

theorem mergeStep_index (frec : BpeState → (Nat × Nat) → List Nat → Nat)
    (st : BpeState) (tp : Nat × Nat) :
    (mergeStep frec st tp).index =
      ((st.index \ removalsOf st tp (newIdOf st tp)) ∪ additionsOf st tp (newIdOf st tp)).filter
        (fun e => e.1 ≠ tp) := rfl

theorem mem_removalsOf {st : BpeState} {tp : Nat × Nat} {nid : Nat} {q : Nat × Nat} {i : Nat} :
    (q, i) ∈ removalsOf st tp nid ↔
      i ∈ regsOf st tp ∧ q ∈ (wordAt st i).pairSet ∧
        q ∉ computePairs (mergePairInWord tp nid (wordAt st i).tokens) := by
  unfold removalsOf
  rw [Finset.mem_biUnion]
  constructor
  · rintro ⟨j, hj, hm⟩
    rw [mem_pairTag] at hm
    obtain ⟨rfl, hq⟩ := hm
    rw [Finset.mem_sdiff] at hq
    exact ⟨hj, hq.1, hq.2⟩
  · rintro ⟨hi, h1, h2⟩
    refine ⟨i, hi, ?_⟩
    rw [mem_pairTag, Finset.mem_sdiff]
    exact ⟨rfl, h1, h2⟩

theorem mem_additionsOf {st : BpeState} {tp : Nat × Nat} {nid : Nat} {q : Nat × Nat} {i : Nat} :
    (q, i) ∈ additionsOf st tp nid ↔
      i ∈ regsOf st tp ∧ q ∈ computePairs (mergePairInWord tp nid (wordAt st i).tokens) ∧
        q ∉ (wordAt st i).pairSet := by
  unfold additionsOf
  rw [Finset.mem_biUnion]
  constructor
  · rintro ⟨j, hj, hm⟩
    rw [mem_pairTag] at hm
    obtain ⟨rfl, hq⟩ := hm
    rw [Finset.mem_sdiff] at hq
    exact ⟨hj, hq.1, hq.2⟩
  · rintro ⟨hi, h1, h2⟩
    refine ⟨i, hi, ?_⟩
    rw [mem_pairTag, Finset.mem_sdiff]
    exact ⟨rfl, h1, h2⟩

theorem regsOf_lt {st : BpeState} (hInv : Inv st) {tp : Nat × Nat} {i : Nat}
    (hi : i ∈ regsOf st tp) : i < st.words.length := by
  rw [mem_regsOf] at hi
  exact ((hInv.2.2 tp i).mp hi).1

/-- Membership in the pair index after one merge iteration: a registration
`(q, i)` survives exactly when `q` is not the merged pair, `i` is a valid
word index and `q` occurs adjacently in the post-merge tokens of word `i`. -/
theorem mergeStep_index_mem (frec : BpeState → (Nat × Nat) → List Nat → Nat)
    {st : BpeState} (hInv : Inv st) (tp : Nat × Nat) (q : Nat × Nat) (i : Nat) :
    ((q, i) ∈ (mergeStep frec st tp).index ↔
      q ≠ tp ∧ i < st.words.length ∧
        q ∈ (newTokensOf st tp i).zip (newTokensOf st tp i).tail) := by
  obtain ⟨hTbl, hPS, hIx⟩ := hInv
  rw [mergeStep_index, Finset.mem_filter, Finset.mem_union, Finset.mem_sdiff,
    mem_removalsOf, mem_additionsOf]
  by_cases hreg : i ∈ regsOf st tp
  · have hi : i < st.words.length := regsOf_lt ⟨hTbl, hPS, hIx⟩ hreg
    have hps : (wordAt st i).pairSet = computePairs (wordAt st i).tokens :=
      hPS _ (wordAt_mem hi)
    have hidx : ((q, i) ∈ st.index ↔ q ∈ (wordAt st i).pairSet) := by
      rw [hIx q i, hps, mem_computePairs]
      exact ⟨fun h => h.2, fun h => ⟨hi, h⟩⟩
    unfold newTokensOf
    rw [if_pos hreg]
    rw [← mem_computePairs]
    constructor
    · rintro ⟨h1 | h1, h2⟩
      · refine ⟨h2, hi, ?_⟩
        by_contra hnew
        exact h1.2 ⟨hreg, hidx.mp h1.1, hnew⟩
      · exact ⟨h2, hi, h1.2.1⟩
    · rintro ⟨hq, _, hnew⟩
      refine ⟨?_, hq⟩
      by_cases hold : q ∈ (wordAt st i).pairSet
      · exact Or.inl ⟨hidx.mpr hold, fun hc => hc.2.2 hnew⟩
      · exact Or.inr ⟨hreg, hnew, hold⟩
  · unfold newTokensOf
    rw [if_neg hreg]
    constructor
    · rintro ⟨h1 | h1, h2⟩
      · have := (hIx q i).mp h1.1
        exact ⟨h2, this.1, this.2⟩
      · exact absurd h1.1 hreg
    · rintro ⟨hq, hi, hadj⟩
      exact ⟨Or.inl ⟨(hIx q i).mpr ⟨hi, hadj⟩, fun hc => hreg hc.1⟩, hq⟩

theorem newId_ne {st : BpeState} (hInv : Inv st) {tp : Nat × Nat} (hk : tp ∈ keysOf st) :
    newIdOf st tp ≠ tp.1 ∧ newIdOf st tp ≠ tp.2 := by
  obtain ⟨⟨hne, hbound⟩, hPS, hIx⟩ := hInv
  obtain ⟨i, hi⟩ := mem_keysOf.mp hk
  obtain ⟨hilen, hadj⟩ := (hIx tp i).mp hi
  obtain ⟨h1, h2⟩ := pair_mem_of_mem_zipTail hadj
  have hw := wordAt_mem hilen
  have hb1 : tp.1 < st.table.length := hbound _ hw _ h1
  have hb2 : tp.2 < st.table.length := hbound _ hw _ h2
  have hs1 : strOf st.table tp.1 ≠ [] := hne _ (strOf_mem hb1)
  have hs2 : strOf st.table tp.2 ≠ [] := hne _ (strOf_mem hb2)
  set s := strOf st.table tp.1 ++ strOf st.table tp.2 with hs
  have hstr : strOf (getTokenId st.table s).1 (newIdOf st tp) = s := getTokenId_strOf _ _
  constructor
  · intro hcase
    have : strOf (getTokenId st.table s).1 tp.1 = strOf st.table tp.1 :=
      getTokenId_stable st.table s hb1
    rw [hcase, this] at hstr
    have := congrArg List.length hstr
    simp only [hs, List.length_append] at this
    exact hs2 (List.length_eq_zero.mp (by omega))
  · intro hcase
    have : strOf (getTokenId st.table s).1 tp.2 = strOf st.table tp.2 :=
      getTokenId_stable st.table s hb2
    rw [hcase, this] at hstr
    have := congrArg List.length hstr
    simp only [hs, List.length_append] at this
    exact hs1 (List.length_eq_zero.mp (by omega))

/-- The merge loop invariant is preserved by one merge iteration. -/
theorem inv_mergeStep (frec : BpeState → (Nat × Nat) → List Nat → Nat)
    {st : BpeState} (hInv : Inv st) {tp : Nat × Nat} (hk : tp ∈ keysOf st) :
    Inv (mergeStep frec st tp) := by
  obtain ⟨hne, hnid2⟩ := newId_ne hInv hk
  obtain ⟨⟨hTne, hbound⟩, hPS, hIx⟩ := hInv
  refine ⟨⟨?_, ?_⟩, ?_, ?_⟩
  · intro s hs
    rw [mergeStep_table] at hs
    rcases getTokenId_mem hs with h | h
    · exact hTne _ h
    · subst h
      intro hcon
      obtain ⟨i, hi⟩ := mem_keysOf.mp hk
      obtain ⟨hilen, hadj⟩ := (hIx tp i).mp hi
      obtain ⟨h1, _⟩ := pair_mem_of_mem_zipTail hadj
      have hb1 : tp.1 < st.table.length := hbound _ (wordAt_mem hilen) _ h1
      have := hTne _ (strOf_mem hb1)
      rw [List.append_eq_nil] at hcon
      exact this hcon.1
  · intro w hw t ht
    rw [mergeStep_words] at hw
    rw [mergeStep_table]
    have hlen := getTokenId_len_le st.table (strOf st.table tp.1 ++ strOf st.table tp.2)
    rcases updWordsAux_mem hw with h | ⟨w0, hw0, rfl⟩
    · exact lt_of_lt_of_le (hbound _ h _ ht) hlen
    · unfold updWord at ht
      simp only at ht
      rcases mergePair_mem ht with h | h
      · exact lt_of_lt_of_le (hbound _ hw0 _ h) hlen
      · subst h
        exact getTokenId_lt _ _
  · intro w hw
    rw [mergeStep_words] at hw
    rcases updWordsAux_mem hw with h | ⟨w0, hw0, rfl⟩
    · exact hPS _ h
    · unfold updWord
      simp
  · intro q i
    rw [mergeStep_index_mem frec ⟨⟨hTne, hbound⟩, hPS, hIx⟩ tp q i]
    rw [mergeStep_words_length]
    by_cases hi : i < st.words.length
    · have hat := mergeStep_wordAt frec st tp hi
      have htok : (wordAt (mergeStep frec st tp) i).tokens = newTokensOf st tp i := by
        rw [hat]
        unfold newTokensOf updWord
        by_cases hreg : i ∈ regsOf st tp
        · rw [if_pos hreg, if_pos hreg]
        · rw [if_neg hreg, if_neg hreg]
      rw [htok]
      constructor
      · rintro ⟨_, _, h⟩
        exact ⟨hi, h⟩
      · rintro ⟨_, h⟩
        refine ⟨?_, hi, h⟩
        unfold newTokensOf at h
        by_cases hreg : i ∈ regsOf st tp
        · rw [if_pos hreg] at h
          intro hc
          subst hc
          exact mergePair_not_mem hne hnid2 h
        · rw [if_neg hreg] at h
          intro hc
          subst hc
          apply hreg
          rw [mem_regsOf]
          exact (hIx q i).mpr ⟨hi, h⟩
    · constructor
      · rintro ⟨_, h, _⟩
        exact absurd h hi
      · rintro ⟨h, _⟩
        exact absurd h hi

/-! ### The initial state satisfies the invariant -/

theorem internChars_extend (cs : List Nat) : ∀ tbl : List (List Nat),
    ∃ ex, (internChars tbl cs).1 = tbl ++ ex := by
  induction cs with
  | nil => intro tbl; exact ⟨[], by simp [internChars]⟩
  | cons c cs ih =>
    intro tbl
    obtain ⟨ex2, hex2⟩ := ih (getTokenId tbl [c]).1
    have hgoal : (internChars tbl (c :: cs)).1 = (getTokenId tbl [c]).1 ++ ex2 := by
      show (internChars (getTokenId tbl [c]).1 cs).1 = _
      exact hex2
    rcases getTokenId_cases tbl [c] with h | h
    · exact ⟨ex2, by rw [hgoal, h]⟩
    · exact ⟨[[c]] ++ ex2, by rw [hgoal, h, List.append_assoc]⟩

theorem internChars_mem {cs : List Nat} : ∀ {tbl : List (List Nat)} {t : List Nat},
    t ∈ (internChars tbl cs).1 → t ∈ tbl ∨ ∃ c, t = [c] := by
  induction cs with
  | nil => intro tbl t h; exact Or.inl h
  | cons c cs ih =>
    intro tbl t h
    simp only [internChars] at h
    rcases ih h with h1 | h1
    · rcases getTokenId_mem h1 with h2 | h2
      · exact Or.inl h2
      · exact Or.inr ⟨c, h2⟩
    · exact Or.inr h1

theorem internChars_ids_lt {cs : List Nat} : ∀ {tbl : List (List Nat)} {i : Nat},
    i ∈ (internChars tbl cs).2 → i < (internChars tbl cs).1.length := by
  induction cs with
  | nil => intro tbl i h; simp [internChars] at h
  | cons c cs ih =>
    intro tbl i h
    simp only [internChars, List.mem_cons] at h
    rcases h with h | h
    · subst h
      obtain ⟨ex, hex⟩ := internChars_extend cs (getTokenId tbl [c]).1
      simp only [internChars, hex, List.length_append]
      have := getTokenId_lt tbl [c]
      omega
    · exact ih h

theorem loadWords_extend (rs : List (List Nat × Nat × Nat)) : ∀ tbl : List (List Nat),
    ∃ ex, (loadWords tbl rs).1 = tbl ++ ex := by
  induction rs with
  | nil => intro tbl; exact ⟨[], by simp [loadWords]⟩
  | cons r rs ih =>
    intro tbl
    obtain ⟨ex1, hex1⟩ := internChars_extend r.1 tbl
    obtain ⟨ex2, hex2⟩ := ih (internChars tbl r.1).1
    refine ⟨ex1 ++ ex2, ?_⟩
    have hgoal : (loadWords tbl (r :: rs)).1 = (internChars tbl r.1).1 ++ ex2 := by
      show (loadWords (internChars tbl r.1).1 rs).1 = _
      exact hex2
    rw [hgoal, hex1, List.append_assoc]

theorem loadWords_mem_table {rs : List (List Nat × Nat × Nat)} :
    ∀ {tbl : List (List Nat)} {t : List Nat},
      t ∈ (loadWords tbl rs).1 → t ∈ tbl ∨ ∃ c, t = [c] := by
  induction rs with
  | nil => intro tbl t h; exact Or.inl h
  | cons r rs ih =>
    intro tbl t h
    simp only [loadWords] at h
    rcases ih h with h1 | h1
    · exact internChars_mem h1
    · exact Or.inr h1

theorem loadWords_words {rs : List (List Nat × Nat × Nat)} :
    ∀ {tbl : List (List Nat)} {w : WordEntry}, w ∈ (loadWords tbl rs).2 →
      w.pairSet = computePairs w.tokens ∧ ∀ t ∈ w.tokens, t < (loadWords tbl rs).1.length := by
  induction rs with
  | nil => intro tbl w h; simp [loadWords] at h
  | cons r rs ih =>
    intro tbl w h
    simp only [loadWords, List.mem_cons] at h
    rcases h with h | h
    · subst h
      refine ⟨rfl, ?_⟩
      intro t ht
      simp only at ht
      have h1 := internChars_ids_lt ht
      obtain ⟨ex, hex⟩ := loadWords_extend rs (internChars tbl r.1).1
      simp only [loadWords, hex, List.length_append]
      omega
    · have := ih h
      simpa only [loadWords] using this

theorem mem_initIndex {ws : List WordEntry} {q : Nat × Nat} {i : Nat} :
    (q, i) ∈ initIndex ws ↔ i < ws.length ∧ q ∈ (ws.getD i default).pairSet := by
  unfold initIndex
  rw [Finset.mem_biUnion]
  constructor
  · rintro ⟨j, hj, hm⟩
    rw [mem_pairTag] at hm
    obtain ⟨rfl, hq⟩ := hm
    exact ⟨Finset.mem_range.mp hj, hq⟩
  · rintro ⟨hi, hq⟩
    exact ⟨i, Finset.mem_range.mpr hi, mem_pairTag.mpr ⟨rfl, hq⟩⟩

/-- The freshly loaded state satisfies the merge loop invariant. -/
theorem inv_initState (rs : List (List Nat × Nat × Nat)) : Inv (initState rs) := by
  refine ⟨⟨?_, ?_⟩, ?_, ?_⟩
  · intro s hs
    rcases loadWords_mem_table hs with h | ⟨c, rfl⟩
    · simp at h
    · simp
  · intro w hw t ht
    exact (loadWords_words hw).2 t ht
  · intro w hw
    exact (loadWords_words hw).1
  · intro q i
    show (q, i) ∈ initIndex (loadWords [] rs).2 ↔ _
    rw [mem_initIndex]
    unfold initState wordAt
    constructor
    · rintro ⟨hi, hq⟩
      refine ⟨hi, ?_⟩
      have hw : (loadWords [] rs).2.getD i default ∈ (loadWords [] rs).2 := by
        rw [List.getD_eq_getElem _ _ hi]
        exact List.getElem_mem hi
      rw [(loadWords_words hw).1, mem_computePairs] at hq
      exact hq
    · rintro ⟨hi, hq⟩
      refine ⟨hi, ?_⟩
      have hw : (loadWords [] rs).2.getD i default ∈ (loadWords [] rs).2 := by
        rw [List.getD_eq_getElem _ _ hi]
        exact List.getElem_mem hi
      rw [(loadWords_words hw).1, mem_computePairs]
      exact hq

/-- The invariant holds at every state the merge loop reaches from a loaded
corpus. -/
theorem inv_reaches (frec : BpeState → (Nat × Nat) → List Nat → Nat)
    {s0 : BpeState} {n : Nat} {st : BpeState} (h0 : Inv s0)
    (h : ReachesF frec s0 n st) : Inv st := by
  induction h with
  | refl => exact h0
  | step hr hsel he ih =>
    subst he
    exact inv_mergeStep frec ih hsel.1

/-! ### The index-restricted weighted frequency equals a full rescan -/

theorem regsOf_eq_filter {st : BpeState} (hInv : Inv st) (q : Nat × Nat) :
    regsOf st q = (Finset.range st.words.length).filter
      (fun i => 0 < countOcc (wordAt st i).tokens q) := by
  ext i
  rw [mem_regsOf, hInv.2.2 q i, Finset.mem_filter, Finset.mem_range, countOcc_pos]

theorem wfreqIdx_eq_wfreqCorpus {st : BpeState} (hInv : Inv st) (q : Nat × Nat) :
    wfreqIdx st q = wfreqCorpus st q := by
  unfold wfreqIdx wfreqCorpus
  rw [regsOf_eq_filter hInv q]
  rw [Finset.sum_filter_of_ne]
  intro i _ hne
  by_contra hzero
  simp only [not_lt, Nat.le_zero] at hzero
  rw [hzero] at hne
  simp at hne

/-! ### Each merge strictly reduces the total token count -/

theorem listSum_eq_range (g : WordEntry → Nat) (ws : List WordEntry) :
    (ws.map g).sum = Finset.sum (Finset.range ws.length) (fun i => g (ws.getD i default)) := by
  induction ws with
  | nil => simp
  | cons w ws ih =>
    rw [List.map_cons, List.sum_cons, List.length_cons, Finset.sum_range_succ']
    simp only [List.getD_cons_succ, List.getD_cons_zero]
    rw [← ih]
    omega

theorem totalTokens_mergeStep_lt (frec : BpeState → (Nat × Nat) → List Nat → Nat)
    {st : BpeState} (hInv : Inv st) {tp : Nat × Nat} (hk : tp ∈ keysOf st) :
    totalTokens (mergeStep frec st tp) < totalTokens st := by
  obtain ⟨i0, hi0⟩ := mem_keysOf.mp hk
  have hreg0 : i0 ∈ regsOf st tp := mem_regsOf.mpr hi0
  obtain ⟨hi0len, hadj0⟩ := (hInv.2.2 tp i0).mp hi0
  unfold totalTokens
  rw [listSum_eq_range, listSum_eq_range, mergeStep_words_length]
  have key : ∀ i, i < st.words.length →
      ((mergeStep frec st tp).words.getD i default).tokens.length =
        (if i ∈ regsOf st tp
          then (mergePairInWord tp (newIdOf st tp) (wordAt st i).tokens).length
          else (wordAt st i).tokens.length) := by
    intro i hi
    have h1 : (mergeStep frec st tp).words.getD i default = wordAt (mergeStep frec st tp) i :=
      rfl
    rw [h1, mergeStep_wordAt frec st tp hi]
    by_cases hreg : i ∈ regsOf st tp
    · rw [if_pos hreg, if_pos hreg]
      rfl
    · rw [if_neg hreg, if_neg hreg]
  apply Finset.sum_lt_sum
  · intro i hi
    rw [Finset.mem_range] at hi
    rw [key i hi]
    by_cases hreg : i ∈ regsOf st tp
    · rw [if_pos hreg]
      exact mergePair_length_le _ _ _
    · rw [if_neg hreg]
      exact le_rfl
  · refine ⟨i0, Finset.mem_range.mpr hi0len, ?_⟩
    rw [key i0 hi0len, if_pos hreg0]
    exact mergePair_length_lt _ hadj0

/-! ### Properties of the selection fold -/

theorem selectFold_acc_le (st : BpeState) (l : List (Nat × Nat)) :
    ∀ acc : Option (Nat × Nat) × Nat,
      acc.2 ≤ (l.foldl (fun acc q =>
        if acc.2 < wfreqIdx st q then (some q, wfreqIdx st q) else acc) acc).2 := by
  induction l with
  | nil => intro acc; exact le_rfl
  | cons q l ih =>
    intro acc
    rw [List.foldl_cons]
    refine le_trans ?_ (ih _)
    by_cases hq : acc.2 < wfreqIdx st q
    · rw [if_pos hq]
      exact le_of_lt hq
    · rw [if_neg hq]

theorem selectFold_bound (st : BpeState) (l : List (Nat × Nat)) :
    ∀ (acc : Option (Nat × Nat) × Nat) (q : Nat × Nat), q ∈ l →
      wfreqIdx st q ≤ (l.foldl (fun acc r =>
        if acc.2 < wfreqIdx st r then (some r, wfreqIdx st r) else acc) acc).2 := by
  induction l with
  | nil => intro acc q hq; simp at hq
  | cons r l ih =>
    intro acc q hq
    rw [List.foldl_cons]
    rcases List.mem_cons.mp hq with h | h
    · subst h
      refine le_trans ?_ (selectFold_acc_le st l _)
      by_cases hc : acc.2 < wfreqIdx st q
      · rw [if_pos hc]
      · rw [if_neg hc]
        omega
    · exact ih _ q h

theorem selectFold_provenance (st : BpeState) (l : List (Nat × Nat)) :
    ∀ acc : Option (Nat × Nat) × Nat,
      (l.foldl (fun acc r =>
        if acc.2 < wfreqIdx st r then (some r, wfreqIdx st r) else acc) acc) = acc ∨
      ∃ p ∈ l, (l.foldl (fun acc r =>
        if acc.2 < wfreqIdx st r then (some r, wfreqIdx st r) else acc) acc) =
          (some p, wfreqIdx st p) := by
  induction l with
  | nil => intro acc; exact Or.inl rfl
  | cons r l ih =>
    intro acc
    rw [List.foldl_cons]
    rcases ih (if acc.2 < wfreqIdx st r then (some r, wfreqIdx st r) else acc) with h | h
    · rw [h]
      by_cases hc : acc.2 < wfreqIdx st r
      · rw [if_pos hc]
        exact Or.inr ⟨r, List.mem_cons_self r l, rfl⟩
      · rw [if_neg hc]
        exact Or.inl rfl
    · obtain ⟨p, hp, he⟩ := h
      exact Or.inr ⟨p, List.mem_cons_of_mem r hp, he⟩

/-- If the selection fold over an enumeration of the present keys returns a
pair whose best frequency clears the floor, that pair is selectable. -/
theorem selectFold_selectable {st : BpeState} {l : List (Nat × Nat)} {p : Nat × Nat} {v : Nat}
    (hl : l.toFinset = keysOf st) (h : selectFold st l = (some p, v)) (hv : 2 ≤ v) :
    Selectable st p := by
  rcases selectFold_provenance st l (none, 0) with hc | ⟨p2, hp2, hc⟩
  · have hc2 : selectFold st l = (none, 0) := hc
    rw [h] at hc2
    exact absurd hc2 (by simp)
  · have hc2 : selectFold st l = (some p2, wfreqIdx st p2) := hc
    rw [h, Prod.mk.injEq, Option.some.injEq] at hc2
    obtain ⟨he1, he2⟩ := hc2
    subst he1
    refine ⟨?_, ?_, ?_⟩
    · rw [← hl]
      exact List.mem_toFinset.mpr hp2
    · rw [← he2]
      exact hv
    · intro q hq
      rw [← he2]
      have hql : q ∈ l := List.mem_toFinset.mp (hl ▸ hq)
      have hb : wfreqIdx st q ≤ (selectFold st l).2 := selectFold_bound st l (none, 0) q hql
      rw [h] at hb
      exact hb

/-- The loop break test `best_freq < 2` holds exactly when no present key
has weighted frequency at least 2. -/
theorem selectFold_break_iff {st : BpeState} {l : List (Nat × Nat)}
    (hl : l.toFinset = keysOf st) :
    (selectFold st l).2 < 2 ↔ Terminated st := by
  constructor
  · intro h q hq
    have hql : q ∈ l := List.mem_toFinset.mp (hl ▸ hq)
    have hb : wfreqIdx st q ≤ (selectFold st l).2 := selectFold_bound st l (none, 0) q hql
    omega
  · intro hT
    rcases selectFold_provenance st l (none, 0) with hc | ⟨p, hp, hc⟩
    · unfold selectFold
      rw [hc]
      decide
    · unfold selectFold
      rw [hc]
      have hpk : p ∈ keysOf st := by
        rw [← hl]
        exact List.mem_toFinset.mpr hp
      exact hT p hpk

/-! ### The iteration count is bounded by the initial total token count -/

theorem reaches_totalTokens (frec : BpeState → (Nat × Nat) → List Nat → Nat)
    {s0 : BpeState} {n : Nat} {st : BpeState} (h0 : Inv s0)
    (h : ReachesF frec s0 n st) : n + totalTokens st ≤ totalTokens s0 := by
  induction h with
  | refl => omega
  | step hr hsel he ih =>
    have hInv := inv_reaches frec h0 hr
    have hlt := totalTokens_mergeStep_lt frec hInv hsel.1
    subst he
    omega

/-! ### Frame facts: merges leave originals, weights and other words alone -/

theorem wordAt_of_ge {st : BpeState} {i : Nat} (h : st.words.length ≤ i) :
    wordAt st i = default := by
  unfold wordAt
  rw [List.getD_eq_default]
  omega

theorem mergeStep_preserves_meta (frec : BpeState → (Nat × Nat) → List Nat → Nat)
    (st : BpeState) (tp : Nat × Nat) (i : Nat) :
    (wordAt (mergeStep frec st tp) i).original = (wordAt st i).original ∧
    (wordAt (mergeStep frec st tp) i).tf = (wordAt st i).tf ∧
    (wordAt (mergeStep frec st tp) i).df = (wordAt st i).df := by
  by_cases hi : i < st.words.length
  · rw [mergeStep_wordAt frec st tp hi]
    by_cases hreg : i ∈ regsOf st tp
    · rw [if_pos hreg]
      unfold updWord
      exact ⟨rfl, rfl, rfl⟩
    · rw [if_neg hreg]
      exact ⟨rfl, rfl, rfl⟩
  · rw [wordAt_of_ge (le_of_not_lt hi), wordAt_of_ge]
    · exact ⟨rfl, rfl, rfl⟩
    · rw [mergeStep_words_length]
      omega

theorem reaches_preserves_meta (frec : BpeState → (Nat × Nat) → List Nat → Nat)
    {s0 : BpeState} {n : Nat} {st : BpeState} (h : ReachesF frec s0 n st) :
    st.words.length = s0.words.length ∧
    ∀ i, (wordAt st i).original = (wordAt s0 i).original ∧
      (wordAt st i).tf = (wordAt s0 i).tf := by
  induction h with
  | refl => exact ⟨rfl, fun i => ⟨rfl, rfl⟩⟩
  | step hr hsel he ih =>
    subst he
    rename_i t m p
    constructor
    · rw [mergeStep_words_length]
      exact ih.1
    · intro i
      have hm := mergeStep_preserves_meta frec t p i
      exact ⟨hm.1.trans (ih.2 i).1, hm.2.1.trans (ih.2 i).2⟩

/-! ### Recording functions of the three variants -/

/-- `bpe.cpp` records `best_freq`, the weighted pair frequency that drove the
selection, as the merge rule frequency. -/
def frecRoot : BpeState → (Nat × Nat) → List Nat → Nat :=
  fun st tp _ => wfreqIdx st tp

/-- Demonstration corpus: the single word `aaa` with weight `tf = 2`. -/
def demoAAA2 : List (List Nat × Nat × Nat) := [([97, 97, 97], 2, 1)]

/-- Demonstration corpus: the single word `ab` with weight 1. -/
def demoAB : List (List Nat × Nat × Nat) := [([97, 98], 1, 1)]

/-! ### Claim C1 -/

/-- C1: after every merge iteration the pair index exactly tracks adjacency
presence: every word index registered under a present pair key has current
tokens containing that pair adjacently at least once and, conversely, every
adjacent pair of every word's current tokens is a present key with that
word's index registered under it. -/
theorem c1_index_exact (frec : BpeState → (Nat × Nat) → List Nat → Nat)
    (rs : List (List Nat × Nat × Nat)) (n : Nat) (st : BpeState)
    (h : ReachesF frec (initState rs) n st) :
    (∀ p ∈ keysOf st, ∀ i ∈ regsOf st p, 0 < countOcc (wordAt st i).tokens p) ∧
    (∀ i, i < st.words.length →
      ∀ p ∈ (wordAt st i).tokens.zip (wordAt st i).tokens.tail,
        p ∈ keysOf st ∧ i ∈ regsOf st p) := by
  have hIx := (inv_reaches frec (inv_initState rs) h).2.2
  constructor
  · intro p _ i hi
    rw [mem_regsOf] at hi
    rw [countOcc_pos]
    exact ((hIx p i).mp hi).2
  · intro i hi p hp
    have hmem : (p, i) ∈ st.index := (hIx p i).mpr ⟨hi, hp⟩
    exact ⟨mem_keysOf.mpr ⟨i, hmem⟩, mem_regsOf.mpr hmem⟩

theorem c1_index_exact_witness :
    (∀ p ∈ keysOf (initState demoAB), ∀ i ∈ regsOf (initState demoAB) p,
      0 < countOcc (wordAt (initState demoAB) i).tokens p) ∧
    (∀ i, i < (initState demoAB).words.length →
      ∀ p ∈ (wordAt (initState demoAB) i).tokens.zip
          (wordAt (initState demoAB) i).tokens.tail,
        p ∈ keysOf (initState demoAB) ∧ i ∈ regsOf (initState demoAB) p) :=
  c1_index_exact frecRoot demoAB 0 (initState demoAB) (ReachesF.refl _)

/-! ### Claim C2 -/

/-- C2: at every iteration, the pair returned by the selection fold (over
any enumeration of the present keys) with a best frequency clearing the
floor has weighted frequency, recomputed independently by full rescan, at
least that of every other pair currently in the index. -/
theorem c2_selection_max (frec : BpeState → (Nat × Nat) → List Nat → Nat)
    (rs : List (List Nat × Nat × Nat)) (n : Nat) (st : BpeState)
    (l : List (Nat × Nat)) (p : Nat × Nat) (v : Nat)
    (h : ReachesF frec (initState rs) n st)
    (hl : l.toFinset = keysOf st)
    (hf : selectFold st l = (some p, v))
    (hv : 2 ≤ v) :
    ∀ q ∈ keysOf st, wfreqCorpus st q ≤ wfreqCorpus st p := by
  have hInv := inv_reaches frec (inv_initState rs) h
  have hS := selectFold_selectable hl hf hv
  intro q hq
  rw [← wfreqIdx_eq_wfreqCorpus hInv, ← wfreqIdx_eq_wfreqCorpus hInv]
  exact hS.2.2 q hq

theorem c2_selection_max_witness :
    wfreqCorpus (initState demoAAA2) (0, 0) ≤ wfreqCorpus (initState demoAAA2) (0, 0) :=
  c2_selection_max frecRoot demoAAA2 0 (initState demoAAA2) [(0, 0)] (0, 0) 4
    (ReachesF.refl _) (by decide) (by decide) (by decide) (0, 0) (by decide)

/-! ### Claim C5 -/

/-- C5 (amended): from any loaded corpus the merge loop runs at most
`totalTokens` many iterations (each merge strictly reduces the total token
count), and it stops exactly when no present pair's weighted frequency is
at least the floor of 2. -/
theorem c5_termination (frec : BpeState → (Nat × Nat) → List Nat → Nat)
    (rs : List (List Nat × Nat × Nat)) (n : Nat) (st : BpeState)
    (h : ReachesF frec (initState rs) n st) :
    n ≤ totalTokens (initState rs) ∧
    (∀ p, Selectable st p → totalTokens (mergeStep frec st p) < totalTokens st) ∧
    (∀ l, l.toFinset = keysOf st → ((selectFold st l).2 < 2 ↔ Terminated st)) := by
  have hInv := inv_reaches frec (inv_initState rs) h
  refine ⟨?_, ?_, ?_⟩
  · have := reaches_totalTokens frec (inv_initState rs) h
    omega
  · intro p hp
    exact totalTokens_mergeStep_lt frec hInv hp.1
  · intro l hl
    exact selectFold_break_iff hl

theorem c5_termination_witness :
    0 ≤ totalTokens (initState demoAB) ∧
    (∀ p, Selectable (initState demoAB) p →
      totalTokens (mergeStep frecRoot (initState demoAB) p) <
        totalTokens (initState demoAB)) ∧
    (∀ l, l.toFinset = keysOf (initState demoAB) →
      ((selectFold (initState demoAB) l).2 < 2 ↔ Terminated (initState demoAB))) :=
  c5_termination frecRoot demoAB 0 (initState demoAB) (ReachesF.refl _)

/-- C5 counterexample: on the corpus with the single word `aaa` of weight 2
the merge loop performs 2 iterations, although the initial segmentation has
exactly 1 distinct adjacent pair, refuting the claimed bound by the number
of distinct initial pairs. -/
theorem c5_counterexample :
    (keysOf (initState demoAAA2)).card = 1 ∧
    ReachesF frecRoot (initState demoAAA2) 2
      (mergeStep frecRoot (mergeStep frecRoot (initState demoAAA2) (0, 0)) (1, 0)) ∧
    ¬(2 ≤ 1) := by
  refine ⟨by decide, ?_, by decide⟩
  exact ReachesF.step (ReachesF.step (ReachesF.refl _) (by decide) rfl) (by decide) rfl

/-! ### Claim C9 -/

/-- C9: a merge iteration rewrites only the words registered under the
chosen pair (any other word entry is untouched), and no iteration ever
changes a word's original string or weight. -/
theorem c9_frame (frec : BpeState → (Nat × Nat) → List Nat → Nat)
    (rs : List (List Nat × Nat × Nat)) (n : Nat) (st : BpeState)
    (h : ReachesF frec (initState rs) n st) :
    (∀ p i, i ∉ regsOf st p → wordAt (mergeStep frec st p) i = wordAt st i) ∧
    (st.words.length = (initState rs).words.length ∧
      ∀ i, (wordAt st i).original = (wordAt (initState rs) i).original ∧
        (wordAt st i).tf = (wordAt (initState rs) i).tf) := by
  refine ⟨?_, reaches_preserves_meta frec h⟩
  intro p i hreg
  by_cases hi : i < st.words.length
  · rw [mergeStep_wordAt frec st p hi, if_neg hreg]
  · rw [wordAt_of_ge (le_of_not_lt hi), wordAt_of_ge]
    rw [mergeStep_words_length]
    omega

theorem c9_frame_witness :
    (∀ p i, i ∉ regsOf (initState demoAB) p →
      wordAt (mergeStep frecRoot (initState demoAB) p) i = wordAt (initState demoAB) i) ∧
    ((initState demoAB).words.length = (initState demoAB).words.length ∧
      ∀ i, (wordAt (initState demoAB) i).original =
          (wordAt (initState demoAB) i).original ∧
        (wordAt (initState demoAB) i).tf = (wordAt (initState demoAB) i).tf) :=
  c9_frame frecRoot demoAB 0 (initState demoAB) (ReachesF.refl _)

/-! ### The suffix automaton of `bpes/bpe_sa.cpp` -/

/-- One automaton state (`struct SAState`): `len`, the suffix link (`none`
models `-1`), the transition map (an association list, where assignment
conses the new binding to the front and lookup takes the first hit, which
matches map-assignment semantics) and the endpos count `occ`. -/
structure SAst where
  len : Nat
  link : Option Nat
  next : List (Nat × Nat)
  occ : Nat
  deriving DecidableEq, Repr

/-- Read state `i` of the store (a zeroed state out of range; the C++
preallocates value-initialized states, and no in-range algorithm read ever
sees an unwritten field). -/
def saGet (store : List SAst) (i : Nat) : SAst := store.getD i ⟨0, none, [], 0⟩

def saSet (store : List SAst) (i : Nat) (s : SAst) : List SAst := store.set i s

/-- `st[p].next` lookup of character `c`. -/
def transOf (s : SAst) (c : Nat) : Option Nat := s.next.lookup c

/-- `st[p].next[c] = v`. -/
def setTrans (store : List SAst) (p : Nat) (c v : Nat) : List SAst :=
  saSet store p { saGet store p with next := (c, v) :: (saGet store p).next }

/-- First walk of `extend`: follow suffix links from `p` while the state has
no transition on `c`, installing a transition to `cur` at every visited
state; stops at the root link (`none`) or at the first state that already
has the transition.  Fuel bounds the walk (state lengths strictly decrease
along suffix links, so any fuel of at least the store size suffices); `none`
models fuel exhaustion and never occurs on the runs evaluated here. -/
def walkSet (c cur : Nat) : Nat → List SAst → Option Nat → Option (List SAst × Option Nat)
  | _, store, none => some (store, none)
  | 0, _, some _ => none
  | fuel + 1, store, some p =>
    match transOf (saGet store p) c with
    | some _ => some (store, some p)
    | none => walkSet c cur fuel (setTrans store p c cur) ((saGet store p).link)

/-- Second walk of `extend` (clone case): follow suffix links from `p` while
the transition on `c` goes to `q`, redirecting it to `clone`. -/
def walkRedirect (c q clone : Nat) : Nat → List SAst → Option Nat → Option (List SAst)
  | _, store, none => some store
  | 0, _, some _ => none
  | fuel + 1, store, some p =>
    if transOf (saGet store p) c = some q then
      walkRedirect c q clone fuel (setTrans store p c clone) ((saGet store p).link)
    else some store

/-- `SuffixAutomaton::extend`: append the new state `cur` (with
`occ = 1`), walk the suffix links installing transitions, then close the
three classical cases (root reached, matching length, clone). -/
def saExtend (c : Nat) (store : List SAst) (last : Nat) : Option (List SAst × Nat) :=
  let cur := store.length
  let st1 := store ++ [⟨(saGet store last).len + 1, none, [], 1⟩]
  match walkSet c cur (st1.length + 1) st1 (some last) with
  | none => none
  | some (st2, none) => some (saSet st2 cur { saGet st2 cur with link := some 0 }, cur)
  | some (st2, some p) =>
    match transOf (saGet st2 p) c with
    | none => none
    | some q =>
      if (saGet st2 p).len + 1 = (saGet st2 q).len then
        some (saSet st2 cur { saGet st2 cur with link := some q }, cur)
      else
        let clone := st2.length
        let st3 := st2 ++ [⟨(saGet st2 p).len + 1, (saGet st2 q).link, (saGet st2 q).next, 0⟩]
        match walkRedirect c q clone (st3.length + 1) st3 (some p) with
        | none => none
        | some st4 =>
          let st5 := saSet st4 q { saGet st4 q with link := some clone }
          some (saSet st5 cur { saGet st5 cur with link := some clone }, cur)

/-- The endpos-count propagation the constructor actually performs: iterate
the states in increasing index order and add each state's current `occ`
into its suffix-link target.  (The constructor also computes a permutation
of the states sorted by decreasing `len`, but never uses it: the loop below
runs over `i = 0, 1, ..., sz-1` directly.) -/
def saPropagate (store : List SAst) : List SAst :=
  (List.range store.length).foldl (fun st i =>
    match (saGet st i).link with
    | none => st
    | some j => saSet st j { saGet st j with occ := (saGet st j).occ + (saGet st i).occ })
    store

/-- `SuffixAutomaton::SuffixAutomaton`: for a nonempty string, extend with
each character starting from the root state and then propagate the `occ`
counts.  For the empty string the constructor executes `st.resize(2*0)`
followed by the write `st[0].len = 0`, an out-of-bounds vector access,
modelled as `none`. -/
def saBuild (s : List Nat) : Option (List SAst) :=
  if s.length = 0 then none
  else
    let r := s.foldl (fun acc c =>
      match acc with
      | none => none
      | some (store, last) => saExtend c store last)
      (some ([⟨0, none, [], 0⟩], 0))
    match r with
    | none => none
    | some (store, _) => some (saPropagate store)

/-- `SuffixAutomaton::countOccurrences`: walk the transitions from the root,
returning 0 as soon as a character has no transition, else the `occ` of the
state reached. -/
def saCountFrom (store : List SAst) : Nat → List Nat → Nat
  | cur, [] => (saGet store cur).occ
  | cur, c :: rest =>
    match transOf (saGet store cur) c with
    | none => 0
    | some nxt => saCountFrom store nxt rest

def saCount (store : List SAst) (pattern : List Nat) : Nat := saCountFrom store 0 pattern

/-- `count_occurrences` (the naive scan of `bpes/bpe.cpp` and the spec's
sliding window): the number of start positions at which `sub` occurs in
`s`; overlapping occurrences count, the empty pattern counts 0.  The
`find`/`pos+1` loop of the C++ enumerates exactly these positions. -/
def cppCountOcc (s sub : List Nat) : Nat :=
  if sub = [] then 0
  else ((List.range s.length).filter (fun i => (s.drop i).take sub.length = sub)).length

/-- The corpus string of `bpe_sa.cpp`: every original word followed by the
separator `#` (codepoint 35). -/
def corpusOf (ws : List (List Nat)) : List Nat :=
  (ws.map (fun w => w ++ [35])).flatten

/-! ### Claims C3, C4, C6, C8 -/

/-- `bpes/bpe.cpp` records, as the rule frequency, the naive occurrence
count of the new token string summed over the original words. -/
def frecNaive : BpeState → (Nat × Nat) → List Nat → Nat :=
  fun st _ s => (st.words.map (fun w => cppCountOcc w.original s)).sum

/-- `bpes/bpe_sa.cpp` records the count reported by the suffix automaton
`A` built once over the corpus. -/
def frecSA (A : List SAst) : BpeState → (Nat × Nat) → List Nat → Nat :=
  fun _ _ s => saCount A s

/-- Demonstration corpus of the spec scenario: the single word `aaaa` with
weight 1 (the `bpes` variants carry no weights). -/
def demoAAAA : List (List Nat × Nat × Nat) := [([97, 97, 97, 97], 1, 1)]

/-- The automaton `bpe_sa.cpp` builds for the corpus `{aaaa}`, i.e. over
the string `aaaa#`. -/
def saAAAA : List SAst := (saBuild (corpusOf [[97, 97, 97, 97]])).getD []

theorem mergeStep_merges (frec : BpeState → (Nat × Nat) → List Nat → Nat)
    (st : BpeState) (tp : Nat × Nat) :
    (mergeStep frec st tp).merges = st.merges ++
      [⟨tp, newIdOf st tp, frec st tp (strOf st.table tp.1 ++ strOf st.table tp.2)⟩] := rfl

/-- C3 (code-bug evidence): on the corpus string `aaa` the automaton
returns 2 for the substring `a`, while the naive sliding-window scan counts
3; likewise on the corpus string `aaaa#` that `bpe_sa.cpp` builds for the
input word `aaaa`, the automaton returns 2 for `aa` against the true count
3.  The constructor computes the permutation of states sorted by decreasing
length but then propagates `occ` in plain state-index order, so counts that
must cascade over more than one suffix link are lost. -/
theorem c3_sa_mismatch :
    ((saBuild [97, 97, 97]).map (fun st => saCount st [97]) = some 2 ∧
      cppCountOcc [97, 97, 97] [97] = 3) ∧
    ((saBuild (corpusOf [[97, 97, 97, 97]])).map (fun st => saCount st [97, 97]) = some 2 ∧
      cppCountOcc (corpusOf [[97, 97, 97, 97]]) [97, 97] = 3) := ⟨⟨rfl, rfl⟩, rfl, rfl⟩

/-- C4 counterexample: in `bpe.cpp` the frequency recorded for the first
merge on the corpus `{aaa : 2}` is 4, the weighted adjacent-pair frequency
used to select it, whereas the new token `aa` occurs exactly twice in the
original corpus word `aaa`. -/
theorem c4_counterexample :
    (mergeStep frecRoot (initState demoAAA2) (0, 0)).merges.map MergeRule.frequency = [4] ∧
    cppCountOcc [97, 97, 97] [97, 97] = 2 ∧ (4 : Nat) ≠ 2 := by
  refine ⟨rfl, rfl, by decide⟩

/-- C4 (amended): the recorded frequency is variant-specific: `bpe.cpp`
stores the weighted pair frequency itself; `bpes/bpe.cpp` stores the naive
exact count of the new token string over the original words; and
`bpes/bpe_sa.cpp` stores the automaton's count, which can differ from the
exact corpus count (on `{aaaa}` the first rule records 2 although `aa`
occurs 3 times in the corpus string `aaaa#`). -/
theorem c4_amended :
    (∀ st : BpeState, ∀ tp : Nat × Nat,
      ((mergeStep frecRoot st tp).merges.map MergeRule.frequency).getLast? =
        some (wfreqIdx st tp)) ∧
    (∀ st : BpeState, ∀ tp : Nat × Nat,
      ((mergeStep frecNaive st tp).merges.map MergeRule.frequency).getLast? =
        some ((st.words.map (fun w =>
          cppCountOcc w.original (strOf st.table tp.1 ++ strOf st.table tp.2))).sum)) ∧
    ((mergeStep (frecSA saAAAA) (initState demoAAAA) (0, 0)).merges.map
        MergeRule.frequency = [2] ∧
      cppCountOcc (corpusOf [[97, 97, 97, 97]]) [97, 97] = 3) := by
  refine ⟨?_, ?_, rfl, rfl⟩
  · intro st tp
    rw [mergeStep_merges, List.map_append]
    simp [frecRoot]
  · intro st tp
    rw [mergeStep_merges, List.map_append]
    simp [frecNaive]

/-- C6 counterexample: on the corpus `{aaaa : 1}`, after the first merge of
`(a,a)` into `aa`, the only present pair `(aa,aa)` has weighted frequency 1,
below the floor of 2, so the loop terminates; the claimed second merge into
`aaaa` never happens. -/
theorem c6_counterexample :
    Terminated (mergeStep (frecSA saAAAA) (initState demoAAAA) (0, 0)) ∧
    wfreqIdx (mergeStep (frecSA saAAAA) (initState demoAAAA) (0, 0)) (1, 1) = 1 ∧
    ¬ Selectable (mergeStep (frecSA saAAAA) (initState demoAAAA) (0, 0)) (1, 1) := by
  decide

/-- C6 (amended): on `{aaaa : 1}` the trainer merges `(a,a)` (the unique
present and selectable pair, weighted frequency 3) into the symbol `aa` and
then terminates, because the remaining pair `(aa,aa)` occurs only once. -/
theorem c6_amended :
    keysOf (initState demoAAAA) = {(0, 0)} ∧
    Selectable (initState demoAAAA) (0, 0) ∧
    wfreqIdx (initState demoAAAA) (0, 0) = 3 ∧
    strOf (mergeStep (frecSA saAAAA) (initState demoAAAA) (0, 0)).table 1 = [97, 97] ∧
    (mergeStep (frecSA saAAAA) (initState demoAAAA) (0, 0)).merges = [⟨(0, 0), 1, 2⟩] ∧
    Terminated (mergeStep (frecSA saAAAA) (initState demoAAAA) (0, 0)) := by
  decide

/-- The token ids present in the final corpus: the key set of the
`final_frequencies` map that `bpe.cpp` writes out. -/
def vocabRoot (st : BpeState) : Finset Nat :=
  st.words.foldl (fun acc w => acc ∪ w.tokens.toFinset) ∅

/-- C8 (code-bug evidence): with zero valid words the merge loop of
`bpe.cpp` terminates at once with no merge rules and an empty vocabulary,
but the `bpe_sa.cpp` constructor performs `st.resize(2*0)` followed by the
out-of-bounds write `st[0].len = 0` (modelled as `none`), so that variant
does not run to completion on empty input. -/
theorem c8_empty_input :
    saBuild (corpusOf []) = none ∧
    Terminated (initState []) ∧
    (initState []).merges = [] ∧
    vocabRoot (initState []) = ∅ := by
  refine ⟨rfl, ?_, rfl, rfl⟩
  decide

/-! ### The corpus loaders (claim C7) -/

/-- Whitespace for stream extraction (tab, LF, VT, FF, CR, space). -/
def isWs (c : Nat) : Bool := c ∈ [9, 10, 11, 12, 13, 32]

def isDigit (c : Nat) : Bool := 48 ≤ c && c ≤ 57

def digitsToNat (ds : List Nat) : Nat := ds.foldl (fun a c => a * 10 + (c - 48)) 0

/-- `iss >> word`: skip whitespace, then read a maximal nonempty run of
non-whitespace characters; fails when nothing remains. -/
def extractWord (l : List Nat) : Option (List Nat × List Nat) :=
  let rest := l.dropWhile (fun c => isWs c)
  let w := rest.takeWhile (fun c => !(isWs c))
  if w = [] then none else some (w, rest.drop w.length)

/-- `iss >> tf` for an `int`: skip whitespace, an optional sign, then a
maximal nonempty digit run; fails when no digit follows.  Like stream
extraction, a valid prefix of a longer field is consumed (`12x` yields 12
and leaves `x`); overflow is not modelled. -/
def extractInt (l : List Nat) : Option (Int × List Nat) :=
  let rest := l.dropWhile (fun c => isWs c)
  let signed : Int × List Nat :=
    match rest with
    | 43 :: r => (1, r)
    | 45 :: r => (-1, r)
    | r => (1, r)
  let ds := signed.2.takeWhile (fun c => isDigit c)
  if ds = [] then none
  else some (signed.1 * (digitsToNat ds : Int), signed.2.drop ds.length)

/-- Outcome of the loader loop body for one line. -/
inductive LineResult where
  | accepted (w : List Nat) (tf df : Int)
  | skippedSilent
  | skippedDiag
  deriving DecidableEq, Repr

/-- The loader loop body of `bpe.cpp`: an empty line is skipped silently
(plain `continue`, no message); otherwise the record must parse as
`word tf df`, and a record that does not is skipped with a diagnostic. -/
def parseLineBpe (l : List Nat) : LineResult :=
  if l = [] then .skippedSilent
  else
    match extractWord l with
    | none => .skippedDiag
    | some (_, r1) =>
      match extractInt r1 with
      | none => .skippedDiag
      | some (tf, r2) =>
        match extractInt r2 with
        | none => .skippedDiag
        | some (df, _) =>
          match extractWord l with
          | some (w, _) => .accepted w tf df
          | none => .skippedDiag

/-- The loader loop body of `bpes/bpe_sa.cpp` and `bpes/bpe.cpp`: an empty
line is skipped silently; otherwise only the word is read (any `tf`/`df`
fields are ignored) and the record is accepted.  These variants carry no
weight, so an accepted word effectively has weight 1. -/
def parseLineSa (l : List Nat) : LineResult :=
  if l = [] then .skippedSilent
  else
    match extractWord l with
    | none => .skippedDiag
    | some (w, _) => .accepted w 1 1

/-- The loader loop: process every line in order, collecting the accepted
records; a skipped line never stops the loop. -/
def loadLines (parse : List Nat → LineResult) : List (List Nat) → List (List Nat × Int × Int)
  | [] => []
  | l :: ls =>
    match parse l with
    | .accepted w tf df => (w, tf, df) :: loadLines parse ls
    | _ => loadLines parse ls

/-- C7 counterexample: the `bpe.cpp` loader rejects the record `abc`, which
consists of a word with the weight absent, skipping it with a diagnostic
instead of accepting it with default weight 1; and blank lines are skipped
silently by every loader, not with a diagnostic. -/
theorem c7_counterexample :
    parseLineBpe [97, 98, 99] = LineResult.skippedDiag ∧
    parseLineBpe [] = LineResult.skippedSilent ∧
    parseLineSa [] = LineResult.skippedSilent := by
  decide

/-- C7 (amended): the `bpes` loaders accept every record whose word
extraction succeeds, with effective weight 1; loading processes all lines
regardless of skipped ones (never aborts); and the `bpe.cpp` loader skips a
record with a diagnostic when no integer weight follows the word. -/
theorem c7_loader (l : List Nat) (w : List Nat) (r : List Nat)
    (parse : List Nat → LineResult) (ls1 ls2 : List (List Nat))
    (hne : l ≠ []) (hw : extractWord l = some (w, r)) :
    parseLineSa l = LineResult.accepted w 1 1 ∧
    loadLines parse (ls1 ++ ls2) = loadLines parse ls1 ++ loadLines parse ls2 ∧
    (extractInt r = none → parseLineBpe l = LineResult.skippedDiag) := by
  refine ⟨?_, ?_, ?_⟩
  · unfold parseLineSa
    rw [if_neg hne, hw]
  · induction ls1 with
    | nil => rfl
    | cons a as ih =>
      cases h : parse a with
      | accepted w2 tf df =>
        simp only [List.cons_append, loadLines, h]
        rw [List.append_eq, ih]
      | skippedSilent =>
        simp only [List.cons_append, loadLines, h]
        rw [List.append_eq, ih]
      | skippedDiag =>
        simp only [List.cons_append, loadLines, h]
        rw [List.append_eq, ih]
  · intro hint
    unfold parseLineBpe
    rw [if_neg hne, hw]
    simp only [hint]

theorem c7_loader_witness :
    parseLineSa [97, 98, 99] = LineResult.accepted [97, 98, 99] 1 1 ∧
    loadLines parseLineBpe ([[]] ++ [[97, 98, 99]]) =
      loadLines parseLineBpe [[]] ++ loadLines parseLineBpe [[97, 98, 99]] ∧
    (extractInt [] = none → parseLineBpe [97, 98, 99] = LineResult.skippedDiag) :=
  c7_loader [97, 98, 99] [97, 98, 99] [] parseLineBpe [[]] [[97, 98, 99]]
    (by decide) (by decide)

/-! ### The linked-list variant `bpes/bpe2.cpp` (claim C10) -/

/-- One node of the doubly linked list (`struct Node`), held in an arena
addressed by index; `prev`/`next` are node indices (`none` models a null
pointer) and `removed` is the tombstone flag. -/
structure BNode where
  token : Nat
  prev : Option Nat
  next : Option Nat
  removed : Bool
  deriving DecidableEq, Repr

def bGet (st : List BNode) (i : Nat) : BNode := st.getD i ⟨0, none, none, false⟩

def bSet (st : List BNode) (i : Nat) (nd : BNode) : List BNode := st.set i nd

/-- The pair map of `bpe2.cpp`: pair key to the list of first-node indices
of its occurrences (`freq` is the length of that list and is kept in sync
by construction, so it is not stored separately). -/
abbrev PMap : Type := List ((Nat × Nat) × List Nat)

/-- `addOccurrence`: push the node onto the pair's occurrence list,
creating the entry when absent. -/
def pmAdd (m : PMap) (p : Nat × Nat) (nd : Nat) : PMap :=
  match m with
  | [] => [(p, [nd])]
  | e :: rest => if e.1 = p then (e.1, e.2 ++ [nd]) :: rest else e :: pmAdd rest p nd

/-- `removeOccurrence`: drop every listed occurrence equal to the node and
erase the entry when its list becomes empty. -/
def pmRemove (m : PMap) (p : Nat × Nat) (nd : Nat) : PMap :=
  match m with
  | [] => []
  | e :: rest =>
    if e.1 = p then
      let occ2 := e.2.filter (fun x => x ≠ nd)
      if occ2 = [] then rest else (e.1, occ2) :: rest
    else e :: pmRemove rest p nd

/-- `pairMap.erase(p)`. -/
def pmErase (m : PMap) (p : Nat × Nat) : PMap := m.filter (fun e => e.1 ≠ p)

/-- The occurrence list of a pair (empty when the key is absent). -/
def pmFind (m : PMap) (p : Nat × Nat) : List Nat :=
  match m.lookup p with
  | some occ => occ
  | none => []

/-- The token sequence of the freshly built chain: each word's tokens
followed by a spacer (the reserved token 0), with the trailing spacer
removed. -/
def spacedTokens (ws : List (List Nat)) : List Nat :=
  ((ws.map (fun w => w ++ [0])).flatten).dropLast

/-- `buildPairMap`: walk the chain and register every adjacent pair whose
two tokens are both non-spacer, keyed by the index of the first node. -/
def buildPairMap (ts : List Nat) : PMap :=
  (List.range (ts.length - 1)).foldl (fun m i =>
    let a := ts.getD i 0
    let b := ts.getD (i + 1) 0
    if a ≠ 0 ∧ b ≠ 0 then pmAdd m (a, b) i else m) []

/-- `left->token = nid; left->next = nx`. -/
def setToken (st : List BNode) (i : Nat) (t : Nat) (nx : Option Nat) : List BNode :=
  bSet st i { bGet st i with token := t, next := nx }

/-- `node->prev = pv`. -/
def setPrev (st : List BNode) (i : Nat) (pv : Option Nat) : List BNode :=
  bSet st i { bGet st i with prev := pv }

/-- `node->removed = true`. -/
def setRemoved (st : List BNode) (i : Nat) : List BNode :=
  bSet st i { bGet st i with removed := true }

/-- The splice of one occurrence: the left node takes the merged token and
skips over the right node, the right node's successor (when present) points
back at the left node, and the right node is tombstoned. -/
def spliceNodes (st : List BNode) (li ri : Nat) (nid : Nat) : List BNode :=
  let st1 := setToken st li nid (bGet st ri).next
  let st2 := match (bGet st ri).next with
    | some ai => setPrev st1 ai (some li)
    | none => st1
  setRemoved st2 ri

/-- Pair-map update for the pair formed with the merged node's predecessor:
mirrors the first guarded block of the merge loop (`left->prev` alive and
neither token the spacer). -/
def pmUpdate1 (pm : PMap) (bp : Nat × Nat) (st3 : List BNode) (li : Nat) : PMap :=
  match (bGet st3 li).prev with
  | some pi =>
    if ¬(bGet st3 pi).removed ∧ (bGet st3 pi).token ≠ 0 ∧ (bGet st3 li).token ≠ 0 then
      pmAdd (pmRemove pm ((bGet st3 pi).token, bp.1) pi)
        ((bGet st3 pi).token, (bGet st3 li).token) pi
    else pm
  | none => pm

/-- Pair-map update for the pair formed with the merged node's successor:
mirrors the second guarded block of the merge loop (the old pair started at
the removed right node, the new one at the merged node). -/
def pmUpdate2 (pm : PMap) (bp : Nat × Nat) (st3 : List BNode) (li ri : Nat) : PMap :=
  match (bGet st3 li).next with
  | some ni =>
    if ¬(bGet st3 ni).removed ∧ (bGet st3 li).token ≠ 0 ∧ (bGet st3 ni).token ≠ 0 then
      pmAdd (pmRemove pm (bp.2, (bGet st3 ni).token) ri)
        ((bGet st3 li).token, (bGet st3 ni).token) li
    else pm
  | none => pm

/-- Processing of one occurrence (node index `li`) of the chosen pair `bp`
inside the merge loop of `bpe2.cpp`: check the validity guards, splice, and
update the pair map around the merged node. -/
def procOcc (bp : Nat × Nat) (nid : Nat) (s : List BNode × PMap) (li : Nat) :
    List BNode × PMap :=
  if li < s.1.length then
    if (bGet s.1 li).removed then s
    else
      match (bGet s.1 li).next with
      | none => s
      | some ri =>
        if (bGet s.1 ri).removed then s
        else if ¬((bGet s.1 li).token = bp.1 ∧ (bGet s.1 ri).token = bp.2) then s
        else
          let st3 := spliceNodes s.1 li ri nid
          (st3, pmUpdate2 (pmUpdate1 s.2 bp st3 li) bp st3 li ri)
  else s

/-- One iteration of the `bpe2.cpp` merge loop for the chosen pair: process
the (copied) occurrence list and finally erase the pair's entry. -/
def runIterationB (s : List BNode × PMap) (bp : Nat × Nat) (nid : Nat) :
    List BNode × PMap :=
  let s2 := (pmFind s.2 bp).foldl (procOcc bp nid) s
  (s2.1, pmErase s2.2 bp)

/-- The spacer-exclusion invariant: no key of the pair map mentions the
reserved spacer token 0 in either component. -/
def PairKeysNonzero (m : PMap) : Prop := ∀ e ∈ m, e.1.1 ≠ 0 ∧ e.1.2 ≠ 0

instance (m : PMap) : Decidable (PairKeysNonzero m) := by
  unfold PairKeysNonzero
  infer_instance

theorem pmAdd_mem {m : PMap} {p : Nat × Nat} {nd : Nat} {e : (Nat × Nat) × List Nat}
    (h : e ∈ pmAdd m p nd) : e.1 = p ∨ e ∈ m := by
  induction m with
  | nil =>
    simp only [pmAdd, List.mem_singleton] at h
    exact Or.inl (by rw [h])
  | cons a m ih =>
    simp only [pmAdd] at h
    by_cases ha : a.1 = p
    · rw [if_pos ha] at h
      rcases List.mem_cons.mp h with h1 | h1
      · exact Or.inl (by rw [h1]; exact ha)
      · exact Or.inr (List.mem_cons_of_mem a h1)
    · rw [if_neg ha] at h
      rcases List.mem_cons.mp h with h1 | h1
      · exact Or.inr (h1 ▸ List.mem_cons_self a m)
      · rcases ih h1 with h2 | h2
        · exact Or.inl h2
        · exact Or.inr (List.mem_cons_of_mem a h2)

theorem pmRemove_mem {m : PMap} {p : Nat × Nat} {nd : Nat} {e : (Nat × Nat) × List Nat}
    (h : e ∈ pmRemove m p nd) : ∃ e2 ∈ m, e.1 = e2.1 := by
  induction m with
  | nil => simp [pmRemove] at h
  | cons a m ih =>
    simp only [pmRemove] at h
    by_cases ha : a.1 = p
    · rw [if_pos ha] at h
      by_cases hocc : a.2.filter (fun x => x ≠ nd) = []
      · rw [if_pos hocc] at h
        exact ⟨e, List.mem_cons_of_mem a h, rfl⟩
      · rw [if_neg hocc] at h
        rcases List.mem_cons.mp h with h1 | h1
        · exact ⟨a, List.mem_cons_self a m, by rw [h1]⟩
        · exact ⟨e, List.mem_cons_of_mem a h1, rfl⟩
    · rw [if_neg ha] at h
      rcases List.mem_cons.mp h with h1 | h1
      · exact ⟨a, List.mem_cons_self a m, by rw [h1]⟩
      · obtain ⟨e2, he2, hee⟩ := ih h1
        exact ⟨e2, List.mem_cons_of_mem a he2, hee⟩

theorem pairKeys_pmAdd {m : PMap} {p : Nat × Nat} {nd : Nat}
    (hm : PairKeysNonzero m) (hp : p.1 ≠ 0 ∧ p.2 ≠ 0) :
    PairKeysNonzero (pmAdd m p nd) := by
  intro e he
  rcases pmAdd_mem he with h | h
  · rw [h]
    exact hp
  · exact hm e h

theorem pairKeys_pmRemove {m : PMap} {p : Nat × Nat} {nd : Nat}
    (hm : PairKeysNonzero m) : PairKeysNonzero (pmRemove m p nd) := by
  intro e he
  obtain ⟨e2, he2, hee⟩ := pmRemove_mem he
  rw [hee]
  exact hm e2 he2

theorem pairKeys_pmErase {m : PMap} {p : Nat × Nat} (hm : PairKeysNonzero m) :
    PairKeysNonzero (pmErase m p) := by
  intro e he
  exact hm e (List.mem_of_mem_filter he)

theorem pairKeys_pmUpdate1 {pm : PMap} {bp : Nat × Nat} {st3 : List BNode} {li : Nat}
    (hm : PairKeysNonzero pm) : PairKeysNonzero (pmUpdate1 pm bp st3 li) := by
  unfold pmUpdate1
  split
  · split
    next hg => exact pairKeys_pmAdd (pairKeys_pmRemove hm) ⟨hg.2.1, hg.2.2⟩
    next => exact hm
  · exact hm

theorem pairKeys_pmUpdate2 {pm : PMap} {bp : Nat × Nat} {st3 : List BNode} {li ri : Nat}
    (hm : PairKeysNonzero pm) : PairKeysNonzero (pmUpdate2 pm bp st3 li ri) := by
  unfold pmUpdate2
  split
  · split
    next hg => exact pairKeys_pmAdd (pairKeys_pmRemove hm) ⟨hg.2.1, hg.2.2⟩
    next => exact hm
  · exact hm

theorem pairKeys_procOcc {bp : Nat × Nat} {nid : Nat} {s : List BNode × PMap} {li : Nat}
    (hm : PairKeysNonzero s.2) : PairKeysNonzero (procOcc bp nid s li).2 := by
  unfold procOcc
  split
  · split
    · exact hm
    · split
      · exact hm
      · split
        · exact hm
        · split
          · exact hm
          · exact pairKeys_pmUpdate2 (pairKeys_pmUpdate1 hm)
  · exact hm

theorem pairKeys_foldl {bp : Nat × Nat} {nid : Nat} :
    ∀ (occs : List Nat) (s : List BNode × PMap), PairKeysNonzero s.2 →
      PairKeysNonzero (occs.foldl (procOcc bp nid) s).2 := by
  intro occs
  induction occs with
  | nil => intro s hm; exact hm
  | cons o os ih =>
    intro s hm
    exact ih _ (pairKeys_procOcc hm)

theorem pairKeys_runIterationB {s : List BNode × PMap} {bp : Nat × Nat} {nid : Nat}
    (hm : PairKeysNonzero s.2) : PairKeysNonzero (runIterationB s bp nid).2 :=
  pairKeys_pmErase (pairKeys_foldl _ _ hm)

theorem pairKeys_buildPairMap (ts : List Nat) : PairKeysNonzero (buildPairMap ts) := by
  unfold buildPairMap
  have hgen : ∀ (is : List Nat) (m : PMap), PairKeysNonzero m →
      PairKeysNonzero (is.foldl (fun m i =>
        let a := ts.getD i 0
        let b := ts.getD (i + 1) 0
        if a ≠ 0 ∧ b ≠ 0 then pmAdd m (a, b) i else m) m) := by
    intro is
    induction is with
    | nil => intro m hm; exact hm
    | cons i is ih =>
      intro m hm
      apply ih
      show PairKeysNonzero (if ts.getD i 0 ≠ 0 ∧ ts.getD (i + 1) 0 ≠ 0 then
        pmAdd m (ts.getD i 0, ts.getD (i + 1) 0) i else m)
      by_cases hg : ts.getD i 0 ≠ 0 ∧ ts.getD (i + 1) 0 ≠ 0
      · rw [if_pos hg]
        exact pairKeys_pmAdd hm hg
      · rw [if_neg hg]
        exact hm
  exact hgen _ [] (by intro e he; simp at he)

theorem bGet_bSet_ne {st : List BNode} {i j : Nat} {nd : BNode} (h : j ≠ i) :
    bGet (bSet st i nd) j = bGet st j := by
  unfold bGet bSet
  rw [List.getD_eq_getElem?_getD, List.getD_eq_getElem?_getD,
    List.getElem?_set_ne (fun hc => h hc.symm)]

theorem bGet_bSet_self {st : List BNode} {i : Nat} {nd : BNode} (h : i < st.length) :
    bGet (bSet st i nd) i = nd := by
  unfold bGet bSet
  rw [List.getD_eq_getElem?_getD, List.getElem?_set_self h]
  rfl

theorem bSet_oob {st : List BNode} {i : Nat} {nd : BNode} (h : ¬i < st.length) :
    bSet st i nd = st :=
  List.set_eq_of_length_le (by omega)

theorem bSet_length (st : List BNode) (i : Nat) (nd : BNode) :
    (bSet st i nd).length = st.length := by
  simp [bSet]

theorem setToken_ne {st : List BNode} {i : Nat} {t : Nat} {nx : Option Nat} {j : Nat}
    (h : j ≠ i) : bGet (setToken st i t nx) j = bGet st j := by
  unfold setToken
  exact bGet_bSet_ne h

theorem setRemoved_ne {st : List BNode} {i j : Nat} (h : j ≠ i) :
    bGet (setRemoved st i) j = bGet st j := by
  unfold setRemoved
  exact bGet_bSet_ne h

theorem setPrev_token_removed (st : List BNode) (i : Nat) (pv : Option Nat) (j : Nat) :
    (bGet (setPrev st i pv) j).token = (bGet st j).token ∧
    (bGet (setPrev st i pv) j).removed = (bGet st j).removed := by
  by_cases hji : j = i
  · subst hji
    by_cases h : j < st.length
    · unfold setPrev
      rw [bGet_bSet_self h]
      exact ⟨rfl, rfl⟩
    · unfold setPrev
      rw [bSet_oob h]
      exact ⟨rfl, rfl⟩
  · unfold setPrev
    rw [bGet_bSet_ne hji]
    exact ⟨rfl, rfl⟩

/-- A spacer node (token 0) is left fully untouched by the splice of an
occurrence of a pair whose two tokens are non-spacer. -/
theorem spliceNodes_spacer {st : List BNode} {li ri nid j : Nat}
    (hli : (bGet st li).token ≠ 0) (hri : (bGet st ri).token ≠ 0)
    (hj : (bGet st j).token = 0) :
    (bGet (spliceNodes st li ri nid) j).token = 0 ∧
    (bGet (spliceNodes st li ri nid) j).removed = (bGet st j).removed := by
  have hjli : j ≠ li := fun hc => hli (hc ▸ hj)
  have hjri : j ≠ ri := fun hc => hri (hc ▸ hj)
  rcases hnx : (bGet st ri).next with _ | ai
  · simp only [spliceNodes, hnx]
    rw [setRemoved_ne hjri, setToken_ne hjli]
    exact ⟨hj, rfl⟩
  · simp only [spliceNodes, hnx]
    rw [setRemoved_ne hjri]
    have h12 := setPrev_token_removed (setToken st li nid (some ai)) ai (some li) j
    rw [setToken_ne hjli] at h12
    exact ⟨h12.1.trans hj, h12.2⟩

/-- A spacer node is untouched by the processing of one occurrence of a
non-spacer pair: its token stays 0 and it is never tombstoned. -/
theorem procOcc_spacer {bp : Nat × Nat} {nid : Nat} {s : List BNode × PMap} {li j : Nat}
    (hbp1 : bp.1 ≠ 0) (hbp2 : bp.2 ≠ 0) (hj : (bGet s.1 j).token = 0) :
    (bGet (procOcc bp nid s li).1 j).token = 0 ∧
    (bGet (procOcc bp nid s li).1 j).removed = (bGet s.1 j).removed := by
  unfold procOcc
  split
  · split
    · exact ⟨hj, rfl⟩
    · split
      · exact ⟨hj, rfl⟩
      · split
        · exact ⟨hj, rfl⟩
        · split
          · exact ⟨hj, rfl⟩
          next ri hnx hrrem hmatch =>
            rw [not_not] at hmatch
            exact spliceNodes_spacer (hmatch.1 ▸ hbp1) (hmatch.2 ▸ hbp2) hj
  · exact ⟨hj, rfl⟩

theorem foldl_spacer {bp : Nat × Nat} {nid : Nat} {j : Nat}
    (hbp1 : bp.1 ≠ 0) (hbp2 : bp.2 ≠ 0) :
    ∀ (occs : List Nat) (s : List BNode × PMap), (bGet s.1 j).token = 0 →
      (bGet ((occs.foldl (procOcc bp nid) s)).1 j).token = 0 ∧
      (bGet ((occs.foldl (procOcc bp nid) s)).1 j).removed = (bGet s.1 j).removed := by
  intro occs
  induction occs with
  | nil => intro s hj; exact ⟨hj, rfl⟩
  | cons o os ih =>
    intro s hj
    have h1 := @procOcc_spacer bp nid s o j hbp1 hbp2 hj
    have h2 := ih (procOcc bp nid s o) h1.1
    exact ⟨h2.1, h2.2.trans h1.2⟩

/-- C10: the reserved spacer token 0 never appears in either component of a
pair-map key — neither after the initial `buildPairMap` nor after a
splice-merge iteration — hence a pair selected from the map never involves
the spacer, and processing the occurrences of such a pair leaves every
spacer node untouched (token still 0, never tombstoned), so no merge spans
a word boundary. -/
theorem c10_spacer_invariant (ws : List (List Nat)) (s : List BNode × PMap)
    (bp : Nat × Nat) (nid : Nat) (occ : List Nat) (j : Nat)
    (hm : PairKeysNonzero s.2) (hbp : (bp, occ) ∈ s.2) (hz : (bGet s.1 j).token = 0) :
    PairKeysNonzero (buildPairMap (spacedTokens ws)) ∧
    (bp.1 ≠ 0 ∧ bp.2 ≠ 0) ∧
    PairKeysNonzero (runIterationB s bp nid).2 ∧
    ((bGet (runIterationB s bp nid).1 j).token = 0 ∧
      (bGet (runIterationB s bp nid).1 j).removed = (bGet s.1 j).removed) := by
  have hnz := hm _ hbp
  refine ⟨pairKeys_buildPairMap _, hnz, pairKeys_runIterationB hm, ?_⟩
  exact foldl_spacer hnz.1 hnz.2 _ s hz

/-- The arena of the chain built from the two-word input `ab`, `ab`
(tokens `a b <spacer> a b`). -/
def demoArena : List BNode :=
  [⟨97, none, some 1, false⟩, ⟨98, some 0, some 2, false⟩,
   ⟨0, some 1, some 3, false⟩, ⟨97, some 2, some 4, false⟩,
   ⟨98, some 3, none, false⟩]

def demoPM : PMap := buildPairMap [97, 98, 0, 97, 98]

theorem c10_spacer_invariant_witness :
    PairKeysNonzero (buildPairMap (spacedTokens [[97, 98], [97, 98]])) ∧
    (((97 : Nat), (98 : Nat)).1 ≠ 0 ∧ ((97 : Nat), (98 : Nat)).2 ≠ 0) ∧
    PairKeysNonzero (runIterationB (demoArena, demoPM) (97, 98) 3).2 ∧
    ((bGet (runIterationB (demoArena, demoPM) (97, 98) 3).1 2).token = 0 ∧
      (bGet (runIterationB (demoArena, demoPM) (97, 98) 3).1 2).removed =
        (bGet (demoArena, demoPM).1 2).removed) :=
  c10_spacer_invariant [[97, 98], [97, 98]] (demoArena, demoPM) (97, 98) 3 [0, 3] 2
    (by decide) (by decide) (by decide)

end MorphoBPE
